import Mathlib

/-!
Shallow embedding of the `pyrbbh` package core: the BLAST command builder
(`pyrbbh/blast.py`), the level scheduler and batch executor (`pyrbbh/mp.py`),
and the scheduler despatch of the driver (`pyrbbh.py`), together with proofs
settling the specification claims about them.

Conventions of the embedding:
* Python strings are `String`; `os.path` operations are modelled for POSIX
  separators (`/`), following CPython's `posixpath` code.
* A Python `Job` object (`pyrbbh/jobs.py`) carries `name`, `command`,
  `dependencies` (list of jobs) and `children` (back-references, list of
  jobs).  The scheduler only ever reads `command`, `children` and the length
  of `dependencies`, and never compares job objects by identity, so the
  mutual back-references are embedded as a tree: `children` holds the child
  jobs themselves, `dependencies` holds the names of the prerequisite jobs.
  Sharing of a child between two parents becomes duplication of an equal
  subtree, which is observationally identical for every function modelled
  here.
* Python `dict` (insertion ordered, value replaced in place on key reuse) is
  an association list with `dictInsert` / `dictLookup`.
* Python `set` of command strings is `Finset String`.
* A `KeyError` that Python would raise surfaces as `Option.none`.
* Exit statuses of spawned commands are `Nat` (POSIX exit statuses are
  0..255); a batch execution is abstracted by the list of exit statuses of
  its commands, since the commands themselves are opaque to the executor.
-/

/-! ## Path model (CPython `posixpath.split`, `posixpath.splitext`, `posixpath.join`) -/

/-- Index of the last occurrence of `c` in `l` (CPython `str.rfind`,
with `none` for "not found" in place of `-1`). -/
def rfindIdx (c : Char) : List Char → Option Nat
  | [] => none
  | a :: l =>
      match rfindIdx c l with
      | some k => some (k + 1)
      | none => if a = c then some 0 else none

/-- `os.path.split(p)[-1]`: the tail of `p` after the final slash
(`posixpath.split`: `i = p.rfind('/') + 1; tail = p[i:]`). -/
def basename (p : String) : String :=
  match rfindIdx '/' p.data with
  | none => p
  | some k => String.mk (p.data.drop (k + 1))

/-- `os.path.splitext(p)`: splits off the extension at the final dot,
provided that dot lies after the final slash and is preceded, within the
basename, by at least one non-dot character (CPython `genericpath._splitext`:
leading dots of the basename never start an extension). -/
def splitext (p : String) : String × String :=
  let l := p.data
  let fi : Nat := match rfindIdx '/' l with | none => 0 | some k => k + 1
  match rfindIdx '.' l with
  | none => (p, "")
  | some di =>
      if fi ≤ di ∧ (List.range' fi (di - fi)).any (fun j => l.getD j '.' != '.') then
        (String.mk (l.take di), String.mk (l.drop di))
      else (p, "")

/-- The filestem of a path: directory stripped, then extension stripped —
the combination `os.path.splitext(os.path.split(p)[-1])[0]` used throughout
`blast.py`. -/
def filestem (p : String) : String :=
  (splitext (basename p)).1

/-- `os.path.join(a, b)` (`posixpath.join`): `b` if it is absolute, else `a`
and `b` glued with a slash unless `a` is empty or already ends in one. -/
def pathJoin (a b : String) : String :=
  if b.data.head? = some '/' then b
  else if a.data = [] ∨ a.data.getLast? = some '/' then String.mk (a.data ++ b.data)
  else String.mk (a.data ++ '/' :: b.data)

/-- Python `"%06d" % n` for `n ≥ 0`: decimal digits, left-padded with zeros
to at least six characters. -/
def fmt06 (n : Nat) : String :=
  let s := toString n
  String.mk (List.replicate (6 - s.length) '0') ++ s

/-! ## `pyrbbh/config.py` -/

/-- `config.BLASTDB_DEFAULT`. -/
def BLASTDB_DEFAULT : String := "makeblastdb"

/-- `config.BLASTP_DEFAULT`. -/
def BLASTP_DEFAULT : String := "blastp"

/-! ## `pyrbbh/jobs.py`: the `Job` class

A `Job` holds its unique name, its shell command, its dependency list and its
child list.  `queue`, `script`, `scriptPath` and `submitted` are never read
by the code under verification and are omitted.  Dependencies are recorded by
job name; children are embedded as subtrees (see the header comment). -/

inductive Job where
  | mk : (name : String) → (command : String) →
      (dependencies : List String) → (children : List Job) → Job

/-- `Job.name`. -/
def Job.name : Job → String
  | Job.mk n _ _ _ => n

/-- `Job.command`. -/
def Job.command : Job → String
  | Job.mk _ c _ _ => c

/-- `Job.dependencies` (as the list of names of the prerequisite jobs). -/
def Job.dependencies : Job → List String
  | Job.mk _ _ d _ => d

/-- `Job.children`. -/
def Job.children : Job → List Job
  | Job.mk _ _ _ ch => ch

/-! ## Python `dict` as an insertion-ordered association list -/

/-- `d[k] = v` on a Python `dict`: replace the value at an existing key in
place, otherwise append the new binding. -/
def dictInsert (d : List (String × Job)) (k : String) (v : Job) : List (String × Job) :=
  match d with
  | [] => [(k, v)]
  | p :: rest => if p.1 = k then (k, v) :: rest else p :: dictInsert rest k v

/-- `d[k]` on a Python `dict`, `none` for a `KeyError`. -/
def dictLookup (d : List (String × Job)) (k : String) : Option Job :=
  match d with
  | [] => none
  | p :: rest => if p.1 = k then some p.2 else dictLookup rest k

/-! ## `pyrbbh/blast.py`: the command builder -/

/-- `blast.construct_makeblastdb_cmd(infile, outdir, blastdb_exe)`: the
database-construction command line and the filestem it is keyed by.  Note
that the `-out` argument joins `outdir` with the full *filename* (extension
kept), while the returned key is the *filestem* (extension stripped). -/
def construct_makeblastdb_cmd (infile outdir blastdb_exe : String) : String × String :=
  let filename := basename infile
  let fstem := filestem infile
  let outfname := pathJoin outdir filename
  (blastdb_exe ++ " -dbtype prot -in " ++ infile ++ " -title " ++ fstem ++
    " -out " ++ outfname, fstem)

/-- The loop body of `blast.make_blastdb_jobs`, with the `enumerate` index
and the dictionary threaded explicitly. -/
def make_blastdb_jobs_aux (outdir blastdb_exe jobpfx : String) :
    List String → Nat → List (String × Job) → List (String × Job)
  | [], _, dbjobdict => dbjobdict
  | fname :: rest, idx, dbjobdict =>
      let p := construct_makeblastdb_cmd fname outdir blastdb_exe
      let job := Job.mk (jobpfx ++ "_db_" ++ fmt06 idx) p.1 [] []
      make_blastdb_jobs_aux outdir blastdb_exe jobpfx rest (idx + 1)
        (dictInsert dbjobdict p.2 job)

/-- `blast.make_blastdb_jobs(infiles, outdir, blastdb_exe, jobprefix)`:
the dictionary of database jobs, keyed by input filestem. -/
def make_blastdb_jobs (infiles : List String) (outdir blastdb_exe jobpfx : String) :
    List (String × Job) :=
  make_blastdb_jobs_aux outdir blastdb_exe jobpfx infiles 0 []

/-- `blast.construct_blastp_cmd(qfile, dbname, outdir, blastp_exe)`. -/
def construct_blastp_cmd (qfile dbname outdir blastp_exe : String) : String :=
  let qstem := filestem qfile
  let dbstem := filestem dbname
  let outpfx := pathJoin outdir (qstem ++ "_vs_" ++ dbstem)
  blastp_exe ++ " -out " ++ outpfx ++ ".xml -query " ++ qfile ++ " -db " ++ dbname ++
    " -outfmt 5"

/-- The inner loop of `blast.make_blastp_jobs` for a fixed `infile1`: one
forward and one reverse query job per later input file, with the running
`jobnum` threaded and returned.  A failed dictionary lookup (Python
`KeyError`) yields `none`. -/
def blastp_inner (outdir blastp_exe jobpfx : String) (dbjobs : List (String × Job))
    (infile1 : String) : List String → Nat → Option (List Job × Nat)
  | [], jobnum => some ([], jobnum)
  | infile2 :: rest2, jobnum =>
      let jn := jobnum + 1
      let fstem1 := filestem infile1
      let dbname1 := pathJoin outdir fstem1
      let fstem2 := filestem infile2
      let dbname2 := pathJoin outdir fstem2
      let cmd1 := construct_blastp_cmd infile1 dbname2 outdir blastp_exe
      let cmd2 := construct_blastp_cmd infile2 dbname1 outdir blastp_exe
      match dictLookup dbjobs fstem2, dictLookup dbjobs fstem1 with
      | some dbjob2, some dbjob1 =>
          let job1 := Job.mk (jobpfx ++ "_query_" ++ fmt06 jn ++ "_fwd") cmd1
            [dbjob2.name] []
          let job2 := Job.mk (jobpfx ++ "_query_" ++ fmt06 jn ++ "_rev") cmd2
            [dbjob1.name] []
          match blastp_inner outdir blastp_exe jobpfx dbjobs infile1 rest2 jn with
          | none => none
          | some (joblist, jn2) => some (job1 :: job2 :: joblist, jn2)
      | _, _ => none

/-- The outer loop of `blast.make_blastp_jobs`: `enumerate(infiles)` with the
inner loop running over the strictly later files `infiles[idx+1:]`. -/
def blastp_outer (outdir blastp_exe jobpfx : String) (dbjobs : List (String × Job)) :
    List String → Nat → Option (List Job × Nat)
  | [], jobnum => some ([], jobnum)
  | infile1 :: rest, jobnum =>
      match blastp_inner outdir blastp_exe jobpfx dbjobs infile1 rest jobnum with
      | none => none
      | some (l1, jn1) =>
          match blastp_outer outdir blastp_exe jobpfx dbjobs rest jn1 with
          | none => none
          | some (l2, jn2) => some (l1 ++ l2, jn2)

/-- `blast.make_blastp_jobs(infiles, outdir, blastp_exe, jobprefix, dbjobs)`. -/
def make_blastp_jobs (infiles : List String) (outdir blastp_exe jobpfx : String)
    (dbjobs : List (String × Job)) : Option (List Job) :=
  (blastp_outer outdir blastp_exe jobpfx dbjobs infiles 0).map (fun r => r.1)

/-- The net effect on a database job of the `job.add_dependency(dbjob)` calls
made by `make_blastp_jobs`: each query job that recorded this database job as
its dependency is appended to the database job's `children`, in creation
order. -/
def withQueryChildren (dbjob : Job) (queryjobs : List Job) : Job :=
  match dbjob with
  | Job.mk n c d ch =>
      Job.mk n c d (ch ++ queryjobs.filter (fun q => decide (q.dependencies = [n])))

/-- `blast.make_blast_jobs(infiles, outdir, blastp_exe, blastdb_exe,
jobprefix)`: `list(dbjobs.values()) + queryjobs`, with the database jobs
carrying the children recorded during query-job construction. -/
def make_blast_jobs (infiles : List String) (outdir blastp_exe blastdb_exe jobpfx : String) :
    Option (List Job) :=
  let dbjobs := make_blastdb_jobs infiles outdir blastdb_exe jobpfx
  match make_blastp_jobs infiles outdir blastp_exe jobpfx dbjobs with
  | none => none
  | some queryjobs =>
      some ((dbjobs.map (fun p => withQueryChildren p.2 queryjobs)) ++ queryjobs)

/-! ## `pyrbbh/mp.py`: level scheduler -/

/-- The two mutations `__populate_jobsets` performs on `jobsets` before
recursing: `if len(jobsets) < depth+1: jobsets.append(set())` and
`jobsets[depth].add(job.command)`. -/
def insertCmd (jobsets : List (Finset String)) (depth : Nat) (cmd : String) :
    List (Finset String) :=
  let js := if jobsets.length < depth + 1 then jobsets ++ [∅] else jobsets
  js.set depth (insert cmd (js.getD depth ∅))

mutual

/-- `mp.__populate_jobsets(job, jobsets, depth)`: records `job.command` in the
set at index `depth` and recurses into every child at `depth + 1`.  The
batches hold command strings, not job objects. -/
def populate_jobsets : Job → List (Finset String) → Nat → List (Finset String)
  | Job.mk _ c _ children, jobsets, depth =>
      populate_children children (insertCmd jobsets depth c) (depth + 1)

/-- The `for j in job.children:` loop of `mp.__populate_jobsets`, threading
`jobsets` left to right. -/
def populate_children : List Job → List (Finset String) → Nat → List (Finset String)
  | [], jobsets, _ => jobsets
  | j :: rest, jobsets, depth =>
      populate_children rest (populate_jobsets j jobsets depth) depth

end

/-- `mp.create_cmdsets(jobgraph)`: seeds `__populate_jobsets` at depth 0 from
every job of the graph that has no dependencies. -/
def create_cmdsets (jobgraph : List Job) : List (Finset String) :=
  (jobgraph.filter (fun j => j.dependencies.isEmpty)).foldl
    (fun jobsets job => populate_jobsets job jobsets 0) []

/-! ## `pyrbbh/mp.py`: batch executor, and the driver loop of `pyrbbh.py`

The spawned commands are opaque; a batch is abstracted by the list of exit
statuses its commands return.  `CUMRETVAL` is the module-level accumulator,
threaded explicitly. -/

/-- `mp.__status_callback(val)`: adds one command's exit status to the
cumulative return value. -/
def status_callback (cumretval : Nat) (val : Nat) : Nat :=
  cumretval + val

/-- `mp.mp_run_cmdset(cmdset)`: runs a batch to completion (the pool is
closed and joined, so every dispatched command finishes), folding every exit
status into `CUMRETVAL` via the callback, and returns the accumulator. -/
def mp_run_cmdset (cumretval : Nat) (exitvals : List Nat) : Nat :=
  exitvals.foldl status_callback cumretval

/-- The batch loop of `PyRBBH.__mp_run_rbbh`: run each command set in order;
after a set completes, `sys.exit(1)` if the cumulative return value is
nonzero.  Returns the list of batches that were dispatched and `true` for a
clean run, `false` for the `sys.exit(1)` failure path. -/
def mp_run_rbbh (cumretval : Nat) : List (List Nat) → List (List Nat) × Bool
  | [] => ([], true)
  | cmdset :: rest =>
      let c := mp_run_cmdset cumretval cmdset
      if c ≠ 0 then ([cmdset], false)
      else
        let r := mp_run_rbbh c rest
        (cmdset :: r.1, r.2)

/-- Outcome of one `rbbh` run, as far as the scheduler despatch decides it:
either the multiprocessing path ran (with its dispatched batches and success
flag), or `PyRBBH.__sge_run_rbbh` raised `NotImplementedError`. -/
inductive RunResult where
  | completed : List (List Nat) → Bool → RunResult
  | notImplementedError : RunResult

/-- The scheduler despatch at the end of `PyRBBH.rbbh`:
`despatch = {'mp': self.__mp_run_rbbh, 'SGE': self.__sge_run_rbbh};
despatch[self._args.scheduler]()`.  A key outside the dictionary would be a
`KeyError` (`none`); `__sge_run_rbbh` raises `NotImplementedError`. -/
def rbbh_despatch (scheduler : String) (exitvals : List (List Nat)) : Option RunResult :=
  if scheduler = "mp" then
    some (RunResult.completed (mp_run_rbbh 0 exitvals).1 (mp_run_rbbh 0 exitvals).2)
  else if scheduler = "SGE" then some RunResult.notImplementedError
  else none

/-! ## Specification-side definitions used by the proofs

`mergeSets` and `jobLevels` give a compositional description of what the
recursive traversal `__populate_jobsets` computes; they are proof artifacts,
not part of the embedded program.  `C7_claimed_cmd` renders the index-job
command exactly as the specification words it, for comparison with the
command the source builds. -/

/-- Pointwise union of two lists of command sets, the longer length winning. -/
def mergeSets : List (Finset String) → List (Finset String) → List (Finset String)
  | [], m => m
  | a :: l, [] => a :: l
  | a :: l, b :: m => (a ∪ b) :: mergeSets l m

mutual

/-- The per-depth command sets contributed by one job subtree: the job's own
command at relative depth 0, the children's contributions shifted down. -/
def jobLevels : Job → List (Finset String)
  | Job.mk _ c _ children => {c} :: levelsList children

/-- The merged per-depth command sets of a list of job subtrees. -/
def levelsList : List Job → List (Finset String)
  | [] => []
  | j :: rest => mergeSets (jobLevels j) (levelsList rest)

end

/-- The index-construction command exactly as the specification claims it:
`<indexer> -in <dataset> -out <outdir>/<stem>`. -/
def C7_claimed_cmd (indexer dataset outdir : String) : String :=
  indexer ++ " -in " ++ dataset ++ " -out " ++ pathJoin outdir (filestem dataset)

/-! ## Lemmas: `mergeSets` algebra -/

theorem mergeSets_nil_right (l : List (Finset String)) : mergeSets l [] = l := by
  cases l <;> rfl

theorem mergeSets_comm (l m : List (Finset String)) : mergeSets l m = mergeSets m l := by
  induction l generalizing m with
  | nil => cases m <;> rfl
  | cons a l ih =>
    cases m with
    | nil => rfl
    | cons b m => simp [mergeSets, Finset.union_comm, ih]

theorem mergeSets_assoc (l m k : List (Finset String)) :
    mergeSets (mergeSets l m) k = mergeSets l (mergeSets m k) := by
  induction l generalizing m k with
  | nil => rfl
  | cons a l ih =>
    cases m with
    | nil => rfl
    | cons b m =>
      cases k with
      | nil => rfl
      | cons c k => simp [mergeSets, Finset.union_assoc, ih]

theorem length_mergeSets (l m : List (Finset String)) :
    (mergeSets l m).length = max l.length m.length := by
  induction l generalizing m with
  | nil => simp [mergeSets]
  | cons a l ih =>
    cases m with
    | nil => simp [mergeSets]
    | cons b m => simp [mergeSets, ih]; omega

theorem mergeSets_replicate_right (l : List (Finset String)) (d : Nat) (h : d ≤ l.length) :
    mergeSets l (List.replicate d ∅) = l := by
  induction l generalizing d with
  | nil =>
    have hd : d = 0 := Nat.le_zero.mp h
    subst hd
    rfl
  | cons a l ih =>
    cases d with
    | zero => rfl
    | succ d =>
      simp only [List.replicate_succ, mergeSets, Finset.union_empty]
      rw [ih d (by simpa using h)]

theorem mergeSets_replicate_both (d : Nat) (A B : List (Finset String)) :
    mergeSets (List.replicate d ∅ ++ A) (List.replicate d ∅ ++ B) =
      List.replicate d ∅ ++ mergeSets A B := by
  induction d with
  | zero => simp
  | succ d ih =>
    simp only [List.replicate_succ, List.cons_append, List.append_eq, mergeSets,
      Finset.union_empty, ih]

theorem mergeSets_snoc_full (l : List (Finset String)) (x : Finset String) :
    mergeSets l (List.replicate l.length ∅ ++ [x]) = l ++ [x] := by
  induction l with
  | nil => rfl
  | cons a l ih =>
    simp only [List.length_cons, List.replicate_succ, List.cons_append, List.append_eq,
      mergeSets, Finset.union_empty, ih]

theorem mergeSets_single_lt (l : List (Finset String)) (depth : Nat) (x : Finset String)
    (h : depth < l.length) :
    mergeSets l (List.replicate depth ∅ ++ [x]) = l.set depth (l.getD depth ∅ ∪ x) := by
  induction l generalizing depth with
  | nil => simp at h
  | cons a l ih =>
    cases depth with
    | zero => simp [mergeSets, mergeSets_nil_right, List.getD_cons_zero, List.set]
    | succ d =>
      simp only [List.replicate_succ, List.cons_append, List.append_eq, mergeSets,
        Finset.union_empty, List.set_cons_succ, List.getD_cons_succ]
      rw [ih d (by simpa using h)]

/-! ## Lemmas: `insertCmd` in terms of `mergeSets` -/

theorem getD_concat_self (l : List (Finset String)) (x : Finset String) :
    (l ++ [x]).getD l.length ∅ = x := by
  induction l with
  | nil => rfl
  | cons a l ih => simp only [List.cons_append, List.length_cons, List.getD_cons_succ, ih]

theorem set_concat_self (l : List (Finset String)) (x y : Finset String) :
    (l ++ [x]).set l.length y = l ++ [y] := by
  induction l with
  | nil => rfl
  | cons a l ih => simp [List.set_cons_succ, ih]

theorem length_insertCmd (js : List (Finset String)) (depth : Nat) (c : String)
    (h : depth ≤ js.length) :
    (insertCmd js depth c).length = max js.length (depth + 1) := by
  by_cases hlt : js.length < depth + 1
  · simp only [insertCmd, if_pos hlt, List.length_set, List.length_append,
      List.length_singleton]
    omega
  · simp only [insertCmd, if_neg hlt, List.length_set]
    omega

theorem insertCmd_eq_merge (js : List (Finset String)) (depth : Nat) (c : String)
    (h : depth ≤ js.length) :
    insertCmd js depth c = mergeSets js (List.replicate depth ∅ ++ [{c}]) := by
  by_cases hlt : js.length < depth + 1
  · have hde : depth = js.length := by omega
    subst hde
    simp only [insertCmd, if_pos hlt]
    rw [getD_concat_self, set_concat_self, mergeSets_snoc_full, insert_emptyc_eq]
  · have hdl : depth < js.length := by omega
    simp only [insertCmd, if_neg hlt]
    rw [mergeSets_single_lt js depth {c} hdl, Finset.insert_eq, Finset.union_comm]

/-! ## Lemmas: what `__populate_jobsets` computes -/

mutual

theorem populate_jobsets_eq : ∀ (j : Job) (js : List (Finset String)) (depth : Nat),
    depth ≤ js.length →
    populate_jobsets j js depth = mergeSets js (List.replicate depth ∅ ++ jobLevels j)
  | Job.mk n c d ch, js, depth, h => by
      have h1 : depth + 1 ≤ (insertCmd js depth c).length := by
        rw [length_insertCmd js depth c h]; omega
      have hrep : List.replicate (depth + 1) (∅ : Finset String) ++ levelsList ch =
          List.replicate depth ∅ ++ (∅ :: levelsList ch) := by
        rw [List.replicate_succ']
        simp [List.append_assoc]
      simp only [populate_jobsets]
      rw [populate_children_eq ch (insertCmd js depth c) (depth + 1) h1,
        insertCmd_eq_merge js depth c h, mergeSets_assoc, hrep, mergeSets_replicate_both]
      simp [mergeSets, Finset.union_empty, jobLevels]

theorem populate_children_eq : ∀ (l : List Job) (js : List (Finset String)) (depth : Nat),
    depth ≤ js.length →
    populate_children l js depth = mergeSets js (List.replicate depth ∅ ++ levelsList l)
  | [], js, depth, h => by
      simp only [populate_children, levelsList, List.append_nil]
      rw [mergeSets_replicate_right js depth h]
  | j :: rest, js, depth, h => by
      have e1 := populate_jobsets_eq j js depth h
      have h1 : depth ≤ (populate_jobsets j js depth).length := by
        rw [e1, length_mergeSets]
        exact le_trans h (le_max_left _ _)
      simp only [populate_children]
      rw [populate_children_eq rest (populate_jobsets j js depth) depth h1, e1,
        mergeSets_assoc, mergeSets_replicate_both]
      simp [levelsList]

end

/-- `create_cmdsets` is the left fold of `mergeSets` over the per-root level
contributions, seeded with the empty batch list. -/
theorem create_cmdsets_eq (jobgraph : List Job) :
    create_cmdsets jobgraph = (jobgraph.filter (fun j => j.dependencies.isEmpty)).foldl
      (fun js j => mergeSets js (jobLevels j)) [] := by
  have key : ∀ (l : List Job) (js : List (Finset String)),
      l.foldl (fun js job => populate_jobsets job js 0) js =
      l.foldl (fun js j => mergeSets js (jobLevels j)) js := by
    intro l
    induction l with
    | nil => intro js; rfl
    | cons j rest ih =>
      intro js
      simp only [List.foldl_cons]
      rw [populate_jobsets_eq j js 0 (Nat.zero_le _)]
      simp only [List.replicate_zero, List.nil_append]
      exact ih _
  unfold create_cmdsets
  exact key _ []

theorem foldl_perm_of_comm {α β : Type} (f : β → α → β)
    (hcomm : ∀ (b : β) (a1 a2 : α), f (f b a1) a2 = f (f b a2) a1) :
    ∀ {l1 l2 : List α}, l1.Perm l2 → ∀ (b : β), l1.foldl f b = l2.foldl f b := by
  intro l1 l2 hp
  induction hp with
  | nil => intro b; rfl
  | cons x _ ih => intro b; simp only [List.foldl_cons]; exact ih _
  | swap x y l => intro b; simp only [List.foldl_cons]; rw [hcomm]
  | trans _ _ ih1 ih2 => intro b; rw [ih1, ih2]

/-! ## Lemmas: membership in batch 0 -/

theorem mem_getD0_mergeSets_left {x : String} (js X : List (Finset String))
    (h : x ∈ js.getD 0 ∅) : x ∈ (mergeSets js X).getD 0 ∅ := by
  cases js with
  | nil => simp [List.getD] at h
  | cons a l =>
    cases X with
    | nil => rw [mergeSets_nil_right]; exact h
    | cons b m =>
      simp only [mergeSets, List.getD_cons_zero] at h ⊢
      exact Finset.mem_union_left _ h

theorem cmd_mem_merge_jobLevels (js : List (Finset String)) (j : Job) :
    j.command ∈ (mergeSets js (jobLevels j)).getD 0 ∅ := by
  cases j with
  | mk n c d ch =>
    cases js with
    | nil => simp [mergeSets, jobLevels, Job.command, List.getD_cons_zero]
    | cons a l => simp [mergeSets, jobLevels, Job.command, List.getD_cons_zero]

theorem foldl_merge_preserves (l : List Job) :
    ∀ (js : List (Finset String)) (x : String), x ∈ js.getD 0 ∅ →
      x ∈ (l.foldl (fun js j => mergeSets js (jobLevels j)) js).getD 0 ∅ := by
  induction l with
  | nil => intro js x h; exact h
  | cons j rest ih =>
    intro js x h
    exact ih _ _ (mem_getD0_mergeSets_left _ _ h)

theorem foldl_merge_mem (l : List Job) :
    ∀ (js : List (Finset String)) (job : Job), job ∈ l →
      job.command ∈ (l.foldl (fun js j => mergeSets js (jobLevels j)) js).getD 0 ∅ := by
  induction l with
  | nil => intro _ _ h; cases h
  | cons j rest ih =>
    intro js job hmem
    rcases List.mem_cons.mp hmem with rfl | h
    · exact foldl_merge_preserves rest _ _ (cmd_mem_merge_jobLevels js job)
    · exact ih _ _ h

/-! ## Lemmas: the batch executor -/

theorem mp_run_cmdset_eq_sum (cumretval : Nat) (exitvals : List Nat) :
    mp_run_cmdset cumretval exitvals = cumretval + exitvals.sum := by
  induction exitvals generalizing cumretval with
  | nil => simp [mp_run_cmdset]
  | cons a l ih =>
    simp only [mp_run_cmdset, List.foldl_cons, status_callback] at *
    rw [ih]
    simp [List.sum_cons]
    omega

theorem nat_sum_zero_all_zero (l : List Nat) (h : l.sum = 0) : ∀ x ∈ l, x = 0 := by
  induction l with
  | nil => simp
  | cons a t ih =>
    simp only [List.sum_cons, Nat.add_eq_zero] at h
    intro x hx
    rcases List.mem_cons.mp hx with rfl | hx
    · exact h.1
    · exact ih h.2 x hx

/-! ## Claim theorems -/

/-- C1 (counterexample): the level scheduler does not track jobs by identity,
and does not place each job in exactly one batch at `1 + max` of its
dependency levels.  First input: two distinct root jobs (`dbA`, `dbB`) with
the identical command string `"cmd"` are collapsed into the single level-0
entry `{"cmd"}` instead of both being retained.  Second input: the diamond
`j0 → j1 → j2`, `j0 → j2` (so `j2` depends on both `j0` and `j1`) puts the
command of `j2` into *two* batches, at depth 1 and at depth 2, instead of
only at level `1 + max(0, 1) = 2`. -/
theorem C1_counterexample :
    create_cmdsets [Job.mk "dbA" "cmd" [] [], Job.mk "dbB" "cmd" [] []] = [{"cmd"}] ∧
    create_cmdsets
        [Job.mk "j0" "c0" [] [Job.mk "j1" "c1" ["j0"] [Job.mk "j2" "c2" ["j0", "j1"] []],
                              Job.mk "j2" "c2" ["j0", "j1"] []],
         Job.mk "j1" "c1" ["j0"] [Job.mk "j2" "c2" ["j0", "j1"] []],
         Job.mk "j2" "c2" ["j0", "j1"] []] = [{"c0"}, {"c1", "c2"}, {"c2"}] := by
  constructor <;> decide

/-- C1 (amended): the scheduler batches command strings, not job objects.
Every job of the input graph with an empty dependency list has its command
placed in batch 0; but batches are sets of command texts, so two distinct
jobs with identical command strings are merged into a single entry, and a job
reachable along several dependency paths has its command recorded at every
path depth rather than only at `1 + max` of its dependency levels. -/
theorem C1_level_scheduler (jobgraph : List Job) (job : Job)
    (h1 : job ∈ jobgraph) (h2 : job.dependencies = []) :
    job.command ∈ (create_cmdsets jobgraph).getD 0 ∅ := by
  rw [create_cmdsets_eq]
  apply foldl_merge_mem
  exact List.mem_filter.mpr ⟨h1, by simp [h2]⟩

/-- Witness for `C1_level_scheduler` at a one-job graph. -/
theorem C1_witness :
    Job.mk "dbA" "c" [] [] ∈ [Job.mk "dbA" "c" [] []] ∧
    (Job.mk "dbA" "c" [] []).dependencies = [] ∧
    "c" ∈ (create_cmdsets [Job.mk "dbA" "c" [] []]).getD 0 ∅ :=
  ⟨List.mem_singleton.mpr rfl, rfl,
    C1_level_scheduler _ _ (List.mem_singleton.mpr rfl) rfl⟩

/-- C10: the level scheduler is order-independent — scheduling any
permutation of the input job list yields the same list of batches (same
number of levels, same command-set membership at each level). -/
theorem C10_schedule_perm_invariant (g g' : List Job) (hp : g.Perm g') :
    create_cmdsets g = create_cmdsets g' := by
  rw [create_cmdsets_eq, create_cmdsets_eq]
  exact foldl_perm_of_comm _
    (fun b a1 a2 => by
      rw [mergeSets_assoc, mergeSets_assoc, mergeSets_comm (jobLevels a1) (jobLevels a2)])
    (hp.filter _) []

/-- Witness for `C10_schedule_perm_invariant`: swapping two index jobs. -/
theorem C10_witness :
    ([Job.mk "dbA" "iA" [] [], Job.mk "dbB" "iB" [] []] : List Job).Perm
        [Job.mk "dbB" "iB" [] [], Job.mk "dbA" "iA" [] []] ∧
    create_cmdsets [Job.mk "dbA" "iA" [] [], Job.mk "dbB" "iB" [] []] =
      create_cmdsets [Job.mk "dbB" "iB" [] [], Job.mk "dbA" "iA" [] []] :=
  ⟨List.Perm.swap _ _ _, C10_schedule_perm_invariant _ _ (List.Perm.swap _ _ _)⟩

/-- C3: if any command of any batch returns a nonzero exit status, the run
fails (`sys.exit(1)`, result flag `false`), the dispatched batches are
exactly the batches up to and including the first failing one — every
command of that batch still contributes its status, i.e. runs to completion
— and no later batch is dispatched. -/
theorem C3_executor_failfast (cmdsets : List (List Nat))
    (h : ∃ b ∈ cmdsets, ∃ v ∈ b, v ≠ 0) :
    (mp_run_rbbh 0 cmdsets).2 = false ∧
      (mp_run_rbbh 0 cmdsets).1 =
        cmdsets.take (cmdsets.findIdx (fun b => b.sum != 0) + 1) := by
  induction cmdsets with
  | nil => simp at h
  | cons b rest ih =>
    by_cases hb : b.sum = 0
    · have hnofail : ∀ v ∈ b, v = 0 := nat_sum_zero_all_zero b hb
      have hrest : ∃ b' ∈ rest, ∃ v ∈ b', v ≠ 0 := by
        rcases h with ⟨b', hb', v, hv, hv0⟩
        rcases List.mem_cons.mp hb' with rfl | hmem
        · exact absurd (hnofail v hv) hv0
        · exact ⟨b', hmem, v, hv, hv0⟩
      have hc : mp_run_cmdset 0 b = 0 := by
        rw [mp_run_cmdset_eq_sum, hb]
      rcases ih hrest with ⟨ih1, ih2⟩
      constructor
      · simp only [mp_run_rbbh, hc]
        simpa using ih1
      · simp only [mp_run_rbbh, hc]
        simp only [ne_eq, not_true_eq_false, if_neg, reduceIte]
        rw [List.findIdx_cons]
        simp only [hb, bne_self_eq_false]
        simp [List.take_succ_cons, ih2]
    · have hc : mp_run_cmdset 0 b ≠ 0 := by
        rw [mp_run_cmdset_eq_sum]
        omega
      have hrun : mp_run_rbbh 0 (b :: rest) = ([b], false) := by
        simp [mp_run_rbbh, hc]
      rw [hrun, List.findIdx_cons]
      have hbt : (b.sum != 0) = true := by
        simpa using hb
      simp [hbt]

/-- Witness for `C3_executor_failfast`: the second command of batch 0 fails,
so only batch 0 is dispatched and the run reports failure. -/
theorem C3_witness :
    (∃ b ∈ [[0, 1], [0]], ∃ v ∈ b, v ≠ 0) ∧
      (mp_run_rbbh 0 [[0, 1], [0]]).2 = false ∧
      (mp_run_rbbh 0 [[0, 1], [0]]).1 =
        [[0, 1], [0]].take (([[0, 1], [0]] : List (List Nat)).findIdx
          (fun b => b.sum != 0) + 1) :=
  ⟨by decide, C3_executor_failfast _ (by decide)⟩

/-- C8: selecting the SGE scheduler backend always despatches to
`__sge_run_rbbh`, which raises `NotImplementedError`; the run never degrades
to the multiprocessing pool outcome and never completes as a no-op. -/
theorem C8_sge_not_implemented (exitvals : List (List Nat)) :
    rbbh_despatch "SGE" exitvals = some RunResult.notImplementedError ∧
      ∀ (dispatched : List (List Nat)) (ok : Bool),
        rbbh_despatch "SGE" exitvals ≠ some (RunResult.completed dispatched ok) := by
  have hne : ("SGE" : String) ≠ "mp" := by decide
  refine ⟨by simp [rbbh_despatch, hne], ?_⟩
  intro dispatched ok
  simp [rbbh_despatch, hne]

/-! ## Lemmas: the database-job dictionary -/

theorem dictLookup_dictInsert_self (d : List (String × Job)) (k : String) (v : Job) :
    dictLookup (dictInsert d k v) k = some v := by
  induction d with
  | nil => simp [dictInsert, dictLookup]
  | cons p rest ih =>
    by_cases hp : p.1 = k
    · simp [dictInsert, hp, dictLookup]
    · simp [dictInsert, hp, dictLookup, ih]

theorem dictLookup_dictInsert_ne (d : List (String × Job)) (k k' : String) (v : Job)
    (h : k' ≠ k) :
    dictLookup (dictInsert d k v) k' = dictLookup d k' := by
  have hk : k ≠ k' := fun he => h he.symm
  induction d with
  | nil => simp [dictInsert, dictLookup, hk]
  | cons p rest ih =>
    by_cases hp : p.1 = k
    · simp [dictInsert, hp, dictLookup, hk]
    · simp [dictInsert, hp, dictLookup, ih]

theorem length_dictInsert_fresh (d : List (String × Job)) (k : String) (v : Job)
    (h : dictLookup d k = none) :
    (dictInsert d k v).length = d.length + 1 := by
  induction d with
  | nil => rfl
  | cons p rest ih =>
    by_cases hp : p.1 = k
    · simp [dictLookup, hp] at h
    · simp only [dictLookup, if_neg hp] at h
      simp [dictInsert, hp, ih h]

theorem mem_dictInsert (d : List (String × Job)) (k : String) (v : Job) (p : String × Job)
    (h : p ∈ dictInsert d k v) : p = (k, v) ∨ p ∈ d := by
  induction d with
  | nil => simpa [dictInsert] using h
  | cons q rest ih =>
    by_cases hq : q.1 = k
    · simp only [dictInsert, if_pos hq] at h
      rcases List.mem_cons.mp h with rfl | h
      · exact Or.inl rfl
      · exact Or.inr (List.mem_cons_of_mem _ h)
    · simp only [dictInsert, if_neg hq] at h
      rcases List.mem_cons.mp h with rfl | h
      · exact Or.inr (List.mem_cons_self _ _)
      · rcases ih h with h' | h'
        · exact Or.inl h'
        · exact Or.inr (List.mem_cons_of_mem _ h')

/-- A binding whose key is hit by none of the remaining input files survives
the rest of the `make_blastdb_jobs` loop unchanged. -/
theorem make_blastdb_jobs_aux_preserves (outdir blastdb_exe jobpfx : String) :
    ∀ (l : List String) (idx : Nat) (d : List (String × Job)) (k : String) (v : Job),
      dictLookup d k = some v → (∀ f ∈ l, filestem f ≠ k) →
      dictLookup (make_blastdb_jobs_aux outdir blastdb_exe jobpfx l idx d) k = some v := by
  intro l
  induction l with
  | nil => intro idx d k v h _; exact h
  | cons f0 rest ih =>
    intro idx d k v h hne
    have hkey : (construct_makeblastdb_cmd f0 outdir blastdb_exe).2 = filestem f0 := rfl
    simp only [make_blastdb_jobs_aux]
    apply ih
    · rw [hkey, dictLookup_dictInsert_ne _ _ _ _
        (fun he => hne f0 (List.mem_cons_self _ _) he.symm)]
      exact h
    · exact fun f hf => hne f (List.mem_cons_of_mem _ hf)

/-- Under pairwise-distinct filestems, looking the dictionary up at the stem
of any input file finds a database job whose command is the
database-construction command for that very file, with no dependencies. -/
theorem make_blastdb_jobs_aux_lookup (outdir blastdb_exe jobpfx : String) :
    ∀ (l : List String) (idx : Nat) (d : List (String × Job)),
      List.Pairwise (fun a b => filestem a ≠ filestem b) l →
      (∀ f ∈ l, dictLookup d (filestem f) = none) →
      ∀ f ∈ l, ∃ jf,
        dictLookup (make_blastdb_jobs_aux outdir blastdb_exe jobpfx l idx d) (filestem f) =
          some jf ∧
        jf.command = (construct_makeblastdb_cmd f outdir blastdb_exe).1 ∧
        jf.dependencies = [] := by
  intro l
  induction l with
  | nil => intro idx d _ _ f hf; cases hf
  | cons f0 rest ih =>
    intro idx d hpw hd f hf
    have hpw0 : ∀ b ∈ rest, filestem f0 ≠ filestem b := (List.pairwise_cons.mp hpw).1
    have hpwr : List.Pairwise (fun a b => filestem a ≠ filestem b) rest :=
      (List.pairwise_cons.mp hpw).2
    have hkey : (construct_makeblastdb_cmd f0 outdir blastdb_exe).2 = filestem f0 := rfl
    rcases List.mem_cons.mp hf with rfl | hfr
    · refine ⟨Job.mk (jobpfx ++ "_db_" ++ fmt06 idx)
        (construct_makeblastdb_cmd f outdir blastdb_exe).1 [] [], ?_, rfl, rfl⟩
      simp only [make_blastdb_jobs_aux]
      apply make_blastdb_jobs_aux_preserves
      · rw [hkey, dictLookup_dictInsert_self]
      · exact fun g hg he => hpw0 g hg he.symm
    · simp only [make_blastdb_jobs_aux]
      apply ih (idx + 1) _ hpwr _ f hfr
      intro g hg
      rw [hkey, dictLookup_dictInsert_ne]
      · exact hd g (List.mem_cons_of_mem _ hg)
      · exact fun he => hpw0 g hg he.symm

/-- `make_blastdb_jobs` under pairwise-distinct filestems: the dictionary
binds the stem of each input file to that file's database job. -/
theorem make_blastdb_jobs_lookup (infiles : List String) (outdir blastdb_exe jobpfx : String)
    (hpw : List.Pairwise (fun a b => filestem a ≠ filestem b) infiles)
    (f : String) (hf : f ∈ infiles) :
    ∃ jf, dictLookup (make_blastdb_jobs infiles outdir blastdb_exe jobpfx) (filestem f) =
        some jf ∧
      jf.command = (construct_makeblastdb_cmd f outdir blastdb_exe).1 ∧
      jf.dependencies = [] :=
  make_blastdb_jobs_aux_lookup outdir blastdb_exe jobpfx infiles 0 [] hpw
    (fun _ _ => rfl) f hf

/-- Under pairwise-distinct filestems every input file inserts a fresh key,
so the dictionary has exactly one entry per input file. -/
theorem make_blastdb_jobs_aux_length (outdir blastdb_exe jobpfx : String) :
    ∀ (l : List String) (idx : Nat) (d : List (String × Job)),
      List.Pairwise (fun a b => filestem a ≠ filestem b) l →
      (∀ f ∈ l, dictLookup d (filestem f) = none) →
      (make_blastdb_jobs_aux outdir blastdb_exe jobpfx l idx d).length =
        d.length + l.length := by
  intro l
  induction l with
  | nil => intro idx d _ _; rfl
  | cons f0 rest ih =>
    intro idx d hpw hd
    have hpw0 : ∀ b ∈ rest, filestem f0 ≠ filestem b := (List.pairwise_cons.mp hpw).1
    have hkey : (construct_makeblastdb_cmd f0 outdir blastdb_exe).2 = filestem f0 := rfl
    simp only [make_blastdb_jobs_aux]
    rw [ih (idx + 1) _ (List.pairwise_cons.mp hpw).2 ?fresh]
    case fresh =>
      intro g hg
      rw [hkey, dictLookup_dictInsert_ne]
      · exact hd g (List.mem_cons_of_mem _ hg)
      · exact fun he => hpw0 g hg he.symm
    rw [hkey, length_dictInsert_fresh _ _ _ (hd f0 (List.mem_cons_self _ _))]
    simp [List.length_cons]
    omega

/-- Every value stored in the database-job dictionary has an empty
dependency list (database jobs are created with no dependencies). -/
theorem make_blastdb_jobs_aux_values (outdir blastdb_exe jobpfx : String) :
    ∀ (l : List String) (idx : Nat) (d : List (String × Job)),
      (∀ p ∈ d, p.2.dependencies = []) →
      ∀ p ∈ make_blastdb_jobs_aux outdir blastdb_exe jobpfx l idx d,
        p.2.dependencies = [] := by
  intro l
  induction l with
  | nil => intro idx d h; exact h
  | cons f0 rest ih =>
    intro idx d h
    simp only [make_blastdb_jobs_aux]
    apply ih
    intro p hp
    rcases mem_dictInsert _ _ _ _ hp with rfl | hp'
    · rfl
    · exact h p hp'

/-! ## Lemmas: the query-job loops of `make_blastp_jobs` -/

/-- Inner-loop characterization: pairing `infile1` with each later file
yields two query jobs per pair; each queries with one file of the pair
against the database path of the other and depends on exactly the other
file's database job. -/
theorem blastp_inner_spec (infiles : List String)
    (outdir blastp_exe blastdb_exe jobpfx : String)
    (hpw : List.Pairwise (fun a b => filestem a ≠ filestem b) infiles)
    (infile1 : String) (h1 : infile1 ∈ infiles) :
    ∀ (l2 : List String) (jobnum : Nat),
      (∀ f ∈ l2, f ∈ infiles) →
      (∀ f ∈ l2, filestem infile1 ≠ filestem f) →
      ∃ jobs jn2,
        blastp_inner outdir blastp_exe jobpfx
            (make_blastdb_jobs infiles outdir blastdb_exe jobpfx) infile1 l2 jobnum =
          some (jobs, jn2) ∧
        jobs.length = 2 * l2.length ∧
        ∀ q ∈ jobs, ∃ f g, f ∈ infiles ∧ g ∈ infiles ∧ filestem f ≠ filestem g ∧
          q.command = construct_blastp_cmd f (pathJoin outdir (filestem g)) outdir
            blastp_exe ∧
          ∃ jg, dictLookup (make_blastdb_jobs infiles outdir blastdb_exe jobpfx)
              (filestem g) = some jg ∧
            jg.command = (construct_makeblastdb_cmd g outdir blastdb_exe).1 ∧
            q.dependencies = [jg.name] := by
  intro l2
  induction l2 with
  | nil =>
    intro jobnum _ _
    exact ⟨[], jobnum, rfl, rfl, fun q hq => absurd hq (List.not_mem_nil q)⟩
  | cons infile2 rest2 ih =>
    intro jobnum hsub hne
    have h2 : infile2 ∈ infiles := hsub infile2 (List.mem_cons_self _ _)
    obtain ⟨j2, hl2, hc2, hd2⟩ :=
      make_blastdb_jobs_lookup infiles outdir blastdb_exe jobpfx hpw infile2 h2
    obtain ⟨j1, hl1, hc1, hd1⟩ :=
      make_blastdb_jobs_lookup infiles outdir blastdb_exe jobpfx hpw infile1 h1
    obtain ⟨jobs, jn2, hrec, hlen, hprop⟩ := ih (jobnum + 1)
      (fun f hf => hsub f (List.mem_cons_of_mem _ hf))
      (fun f hf => hne f (List.mem_cons_of_mem _ hf))
    have hne2 : filestem infile1 ≠ filestem infile2 := hne infile2 (List.mem_cons_self _ _)
    refine ⟨Job.mk (jobpfx ++ "_query_" ++ fmt06 (jobnum + 1) ++ "_fwd")
        (construct_blastp_cmd infile1 (pathJoin outdir (filestem infile2)) outdir blastp_exe)
        [j2.name] [] ::
      Job.mk (jobpfx ++ "_query_" ++ fmt06 (jobnum + 1) ++ "_rev")
        (construct_blastp_cmd infile2 (pathJoin outdir (filestem infile1)) outdir blastp_exe)
        [j1.name] [] :: jobs, jn2, ?_, ?_, ?_⟩
    · simp only [blastp_inner, hl2, hl1, hrec]
    · simp only [List.length_cons, hlen, List.length_cons]
      omega
    · intro q hq
      rcases List.mem_cons.mp hq with rfl | hq
      · exact ⟨infile1, infile2, h1, h2, hne2, rfl, j2, hl2, hc2, rfl⟩
      rcases List.mem_cons.mp hq with rfl | hq
      · exact ⟨infile2, infile1, h2, h1, fun he => hne2 he.symm, rfl, j1, hl1, hc1, rfl⟩
      · exact hprop q hq

/-- Outer-loop characterization: over a suffix `l` of the input files with
pairwise-distinct stems, `blastp_outer` succeeds and produces
`|l| * (|l| - 1)` query jobs, every one of which queries with one input file
against another input file's database and depends on exactly that other
file's database job. -/
theorem blastp_outer_spec (infiles : List String)
    (outdir blastp_exe blastdb_exe jobpfx : String)
    (hpw : List.Pairwise (fun a b => filestem a ≠ filestem b) infiles) :
    ∀ (l : List String) (jobnum : Nat),
      (∀ f ∈ l, f ∈ infiles) →
      List.Pairwise (fun a b => filestem a ≠ filestem b) l →
      ∃ jobs jn2,
        blastp_outer outdir blastp_exe jobpfx
            (make_blastdb_jobs infiles outdir blastdb_exe jobpfx) l jobnum =
          some (jobs, jn2) ∧
        jobs.length = l.length * (l.length - 1) ∧
        ∀ q ∈ jobs, ∃ f g, f ∈ infiles ∧ g ∈ infiles ∧ filestem f ≠ filestem g ∧
          q.command = construct_blastp_cmd f (pathJoin outdir (filestem g)) outdir
            blastp_exe ∧
          ∃ jg, dictLookup (make_blastdb_jobs infiles outdir blastdb_exe jobpfx)
              (filestem g) = some jg ∧
            jg.command = (construct_makeblastdb_cmd g outdir blastdb_exe).1 ∧
            q.dependencies = [jg.name] := by
  intro l
  induction l with
  | nil =>
    intro jobnum _ _
    exact ⟨[], jobnum, rfl, rfl, fun q hq => absurd hq (List.not_mem_nil q)⟩
  | cons f1 rest ih =>
    intro jobnum hsub hpl
    obtain ⟨jobs1, jn1, hi, hlen1, hp1⟩ :=
      blastp_inner_spec infiles outdir blastp_exe blastdb_exe jobpfx hpw f1
        (hsub f1 (List.mem_cons_self _ _)) rest jobnum
        (fun f hf => hsub f (List.mem_cons_of_mem _ hf))
        (List.pairwise_cons.mp hpl).1
    obtain ⟨jobs2, jn2, ho, hlen2, hp2⟩ := ih jn1
      (fun f hf => hsub f (List.mem_cons_of_mem _ hf))
      (List.pairwise_cons.mp hpl).2
    refine ⟨jobs1 ++ jobs2, jn2, ?_, ?_, ?_⟩
    · simp only [blastp_outer, hi, ho]
    · rw [List.length_append, hlen1, hlen2, List.length_cons]
      cases hr : rest.length with
      | zero => simp
      | succ r =>
        simp only [Nat.succ_sub_one, Nat.add_sub_cancel]
        ring
    · intro q hq
      rcases List.mem_append.mp hq with hq | hq
      · exact hp1 q hq
      · exact hp2 q hq

/-- C4: for datasets with pairwise-distinct filestems, every comparison job
has exactly one dependency — the singleton `[jg.name]` — and `jg` is the
index job of the *other* dataset `g` of its pair: the job's command queries
with `f` against the database path derived from `g`'s stem, `f` and `g` have
different stems, and `jg` is the dictionary's database job for `g`, whose
command indexes `g` itself. -/
theorem C4_query_dependencies (infiles : List String)
    (outdir blastp_exe blastdb_exe jobpfx : String)
    (hpw : List.Pairwise (fun a b => filestem a ≠ filestem b) infiles) :
    ∃ qjobs, make_blastp_jobs infiles outdir blastp_exe jobpfx
        (make_blastdb_jobs infiles outdir blastdb_exe jobpfx) = some qjobs ∧
      ∀ q ∈ qjobs, ∃ f g, f ∈ infiles ∧ g ∈ infiles ∧ filestem f ≠ filestem g ∧
        q.command = construct_blastp_cmd f (pathJoin outdir (filestem g)) outdir
          blastp_exe ∧
        ∃ jg, dictLookup (make_blastdb_jobs infiles outdir blastdb_exe jobpfx)
            (filestem g) = some jg ∧
          jg.command = (construct_makeblastdb_cmd g outdir blastdb_exe).1 ∧
          q.dependencies = [jg.name] := by
  obtain ⟨jobs, jn2, ho, _, hp⟩ :=
    blastp_outer_spec infiles outdir blastp_exe blastdb_exe jobpfx hpw infiles 0
      (fun _ hf => hf) hpw
  exact ⟨jobs, by simp [make_blastp_jobs, ho], hp⟩

/-- Witness for `C4_query_dependencies` on two concrete datasets. -/
theorem C4_witness :
    List.Pairwise (fun a b => filestem a ≠ filestem b) ["d/a.fa", "d/b.fa"] ∧
    (∃ qjobs, make_blastp_jobs ["d/a.fa", "d/b.fa"] "o" "blastp" "P"
        (make_blastdb_jobs ["d/a.fa", "d/b.fa"] "o" "makeblastdb" "P") = some qjobs ∧
      ∀ q ∈ qjobs, ∃ f g, f ∈ ["d/a.fa", "d/b.fa"] ∧ g ∈ ["d/a.fa", "d/b.fa"] ∧
        filestem f ≠ filestem g ∧
        q.command = construct_blastp_cmd f (pathJoin "o" (filestem g)) "o" "blastp" ∧
        ∃ jg, dictLookup (make_blastdb_jobs ["d/a.fa", "d/b.fa"] "o" "makeblastdb" "P")
            (filestem g) = some jg ∧
          jg.command = (construct_makeblastdb_cmd g "o" "makeblastdb").1 ∧
          q.dependencies = [jg.name]) :=
  ⟨by decide, C4_query_dependencies _ _ _ _ _ (by decide)⟩

/-- C5: for `n` datasets with pairwise-distinct filestems, `make_blast_jobs`
returns the database jobs (exactly `n`, each with zero dependencies)
followed by the query jobs (exactly `n * (n - 1)`, each with one
dependency), `n + n * (n - 1)` jobs in total. -/
theorem C5_job_counts (infiles : List String)
    (outdir blastp_exe blastdb_exe jobpfx : String)
    (hpw : List.Pairwise (fun a b => filestem a ≠ filestem b) infiles) :
    ∃ dbpart qjobs,
      make_blast_jobs infiles outdir blastp_exe blastdb_exe jobpfx =
        some (dbpart ++ qjobs) ∧
      dbpart.length = infiles.length ∧
      (∀ j ∈ dbpart, j.dependencies = []) ∧
      qjobs.length = infiles.length * (infiles.length - 1) ∧
      (∀ j ∈ qjobs, j.dependencies.length = 1) ∧
      (dbpart ++ qjobs).length =
        infiles.length + infiles.length * (infiles.length - 1) := by
  obtain ⟨qjobs, jn2, ho, hlen, hp⟩ :=
    blastp_outer_spec infiles outdir blastp_exe blastdb_exe jobpfx hpw infiles 0
      (fun _ hf => hf) hpw
  have hdlen : (make_blastdb_jobs infiles outdir blastdb_exe jobpfx).length =
      infiles.length := by
    have := make_blastdb_jobs_aux_length outdir blastdb_exe jobpfx infiles 0 []
      hpw (fun _ _ => rfl)
    simpa [make_blastdb_jobs] using this
  refine ⟨(make_blastdb_jobs infiles outdir blastdb_exe jobpfx).map
      (fun p => withQueryChildren p.2 qjobs), qjobs, ?_, ?_, ?_, hlen, ?_, ?_⟩
  · simp [make_blast_jobs, make_blastp_jobs, ho]
  · rw [List.length_map, hdlen]
  · intro j hj
    obtain ⟨p, hpmem, rfl⟩ := List.mem_map.mp hj
    have hdep := make_blastdb_jobs_aux_values outdir blastdb_exe jobpfx infiles 0 []
      (by simp) p hpmem
    rcases p with ⟨k, j⟩
    rcases j with ⟨n, c, dd, ch⟩
    simpa [withQueryChildren, Job.dependencies] using hdep
  · intro j hj
    obtain ⟨f, g, _, _, _, _, jg, _, _, hdep⟩ := hp j hj
    rw [hdep]
    rfl
  · rw [List.length_append, List.length_map, hdlen, hlen]

/-- Witness for `C5_job_counts` on three concrete datasets: 3 index jobs and
3·2 = 6 query jobs. -/
theorem C5_witness :
    List.Pairwise (fun a b => filestem a ≠ filestem b) ["d/a.fa", "d/b.fa", "d/c.fa"] ∧
    (∃ dbpart qjobs,
      make_blast_jobs ["d/a.fa", "d/b.fa", "d/c.fa"] "o" "blastp" "makeblastdb" "P" =
        some (dbpart ++ qjobs) ∧
      dbpart.length = (["d/a.fa", "d/b.fa", "d/c.fa"] : List String).length ∧
      (∀ j ∈ dbpart, j.dependencies = []) ∧
      qjobs.length = (["d/a.fa", "d/b.fa", "d/c.fa"] : List String).length *
        ((["d/a.fa", "d/b.fa", "d/c.fa"] : List String).length - 1) ∧
      (∀ j ∈ qjobs, j.dependencies.length = 1) ∧
      (dbpart ++ qjobs).length =
        (["d/a.fa", "d/b.fa", "d/c.fa"] : List String).length +
          (["d/a.fa", "d/b.fa", "d/c.fa"] : List String).length *
            ((["d/a.fa", "d/b.fa", "d/c.fa"] : List String).length - 1)) :=
  ⟨by decide, C5_job_counts _ _ _ _ _ (by decide)⟩

/-- C7 (counterexample): the index-construction command the source builds is
not the claimed `<indexer> -in <dataset> -out <outdir>/<stem>`: it carries
the additional `-dbtype prot` and `-title <stem>` arguments, and its `-out`
path keeps the file extension (`o/x.fasta`, not `o/x`). -/
theorem C7_counterexample :
    (construct_makeblastdb_cmd "d/x.fasta" "o" "makeblastdb").1 =
      "makeblastdb -dbtype prot -in d/x.fasta -title x -out o/x.fasta" ∧
    C7_claimed_cmd "makeblastdb" "d/x.fasta" "o" = "makeblastdb -in d/x.fasta -out o/x" ∧
    (construct_makeblastdb_cmd "d/x.fasta" "o" "makeblastdb").1 ≠
      C7_claimed_cmd "makeblastdb" "d/x.fasta" "o" := by
  refine ⟨by decide, by decide, by decide⟩

/-- C7 (amended): for every dataset of a list with pairwise-distinct
filestems, the index-construction job built for it carries exactly the
command `<indexer> -dbtype prot -in <dataset> -title <stem> -out
<outdir>/<filename>`, where `<filename>` keeps the extension, and has no
dependencies. -/
theorem C7_index_command (infiles : List String) (outdir blastdb_exe jobpfx : String)
    (hpw : List.Pairwise (fun a b => filestem a ≠ filestem b) infiles)
    (f : String) (hf : f ∈ infiles) :
    ∃ j, dictLookup (make_blastdb_jobs infiles outdir blastdb_exe jobpfx) (filestem f) =
        some j ∧
      j.command = blastdb_exe ++ " -dbtype prot -in " ++ f ++ " -title " ++ filestem f ++
        " -out " ++ pathJoin outdir (basename f) ∧
      j.dependencies = [] := by
  obtain ⟨j, h1, h2, h3⟩ := make_blastdb_jobs_lookup infiles outdir blastdb_exe jobpfx hpw f hf
  exact ⟨j, h1, by rw [h2]; rfl, h3⟩

/-- Witness for `C7_index_command` at a single concrete dataset. -/
theorem C7_witness :
    List.Pairwise (fun a b => filestem a ≠ filestem b) ["d/x.fasta"] ∧
    (∃ j, dictLookup (make_blastdb_jobs ["d/x.fasta"] "o" "makeblastdb" "P")
        (filestem "d/x.fasta") = some j ∧
      j.command = "makeblastdb" ++ " -dbtype prot -in " ++ "d/x.fasta" ++ " -title " ++
        filestem "d/x.fasta" ++ " -out " ++ pathJoin "o" (basename "d/x.fasta") ∧
      j.dependencies = []) :=
  ⟨by decide, C7_index_command _ _ _ _ (by decide) _ (by decide)⟩

/-- C9: the command builder is a pure function of the dataset list, the
output directory, the two executables and the job prefix — two runs on the
same arguments yield identical job-name and command sequences.  (The
source's only impure default, the timestamped fallback `jobprefix`, is fixed
by the claim's "same prefix".) -/
theorem C9_builder_deterministic (infiles : List String)
    (outdir blastp_exe blastdb_exe jobpfx : String) (run1 run2 : List Job)
    (h1 : make_blast_jobs infiles outdir blastp_exe blastdb_exe jobpfx = some run1)
    (h2 : make_blast_jobs infiles outdir blastp_exe blastdb_exe jobpfx = some run2) :
    run1.map Job.name = run2.map Job.name ∧
      run1.map Job.command = run2.map Job.command := by
  have heq : run1 = run2 := Option.some.inj (h1.symm.trans h2)
  subst heq
  exact ⟨rfl, rfl⟩

/-- Witness for `C9_builder_deterministic` at one concrete dataset. -/
theorem C9_witness :
    make_blast_jobs ["d/a.fa"] "o" "blastp" "makeblastdb" "P" =
      some [Job.mk "P_db_000000"
        "makeblastdb -dbtype prot -in d/a.fa -title a -out o/a.fa" [] []] ∧
    ([Job.mk "P_db_000000"
        "makeblastdb -dbtype prot -in d/a.fa -title a -out o/a.fa" [] []].map Job.name =
      [Job.mk "P_db_000000"
        "makeblastdb -dbtype prot -in d/a.fa -title a -out o/a.fa" [] []].map Job.name ∧
     [Job.mk "P_db_000000"
        "makeblastdb -dbtype prot -in d/a.fa -title a -out o/a.fa" [] []].map Job.command =
      [Job.mk "P_db_000000"
        "makeblastdb -dbtype prot -in d/a.fa -title a -out o/a.fa" [] []].map Job.command) :=
  ⟨rfl, C9_builder_deterministic ["d/a.fa"] "o" "blastp" "makeblastdb" "P" _ _ rfl rfl⟩

/-- C2 (counterexample): two inputs with the same filestem are *not*
rejected — no error exists on this path.  For `a/x.fa` and `b/x.fa` (both
stem `x`) the database dictionary silently keeps only one entry and
`make_blast_jobs` still returns a job set (of 3 jobs: 1 index job and 2
comparison jobs). -/
theorem C2_counterexample :
    filestem "a/x.fa" = filestem "b/x.fa" ∧
    (make_blastdb_jobs ["a/x.fa", "b/x.fa"] "o" "makeblastdb" "P").length = 1 ∧
    (make_blast_jobs ["a/x.fa", "b/x.fa"] "o" "blastp" "makeblastdb" "P").map
      List.length = some 3 := by
  refine ⟨by decide, rfl, rfl⟩

/-- C2 (amended): colliding filestems are not rejected and no error is
raised before or during job building.  The later dataset's index job
*overwrites* the earlier one under their shared stem key (the dictionary
keeps a single entry holding the second file's job, named `<prefix>_db_`
index 1), a full job set of three jobs is still returned, and *both*
directional comparison jobs depend on that single surviving index job. -/
theorem C2_collision_behavior (f1 f2 outdir blastp_exe blastdb_exe jobpfx : String)
    (h : filestem f1 = filestem f2) :
    make_blastdb_jobs [f1, f2] outdir blastdb_exe jobpfx =
      [(filestem f2, Job.mk (jobpfx ++ "_db_" ++ fmt06 1)
          (construct_makeblastdb_cmd f2 outdir blastdb_exe).1 [] [])] ∧
    (make_blast_jobs [f1, f2] outdir blastp_exe blastdb_exe jobpfx).map
        (fun l => l.map (fun j => (j.name, j.dependencies))) =
      some [(jobpfx ++ "_db_" ++ fmt06 1, []),
        (jobpfx ++ "_query_" ++ fmt06 1 ++ "_fwd", [jobpfx ++ "_db_" ++ fmt06 1]),
        (jobpfx ++ "_query_" ++ fmt06 1 ++ "_rev", [jobpfx ++ "_db_" ++ fmt06 1])] := by
  have hdict : make_blastdb_jobs [f1, f2] outdir blastdb_exe jobpfx =
      [(filestem f2, Job.mk (jobpfx ++ "_db_" ++ fmt06 1)
        (construct_makeblastdb_cmd f2 outdir blastdb_exe).1 [] [])] := by
    have hstep : make_blastdb_jobs [f1, f2] outdir blastdb_exe jobpfx =
        dictInsert [(filestem f1, Job.mk (jobpfx ++ "_db_" ++ fmt06 0)
          (construct_makeblastdb_cmd f1 outdir blastdb_exe).1 [] [])]
          (filestem f2) (Job.mk (jobpfx ++ "_db_" ++ fmt06 1)
          (construct_makeblastdb_cmd f2 outdir blastdb_exe).1 [] []) := rfl
    rw [hstep]
    simp [dictInsert, h]
  refine ⟨hdict, ?_⟩
  simp only [make_blast_jobs, make_blastp_jobs, hdict]
  simp only [blastp_outer, blastp_inner, dictLookup, h, if_pos]
  simp [withQueryChildren, Job.name, Job.dependencies]

/-- Witness for `C2_collision_behavior` at two concrete colliding inputs. -/
theorem C2_witness :
    filestem "a/x.fa" = filestem "b/x.fa" ∧
    (make_blastdb_jobs ["a/x.fa", "b/x.fa"] "o" "makeblastdb" "P" =
      [(filestem "b/x.fa", Job.mk ("P" ++ "_db_" ++ fmt06 1)
          (construct_makeblastdb_cmd "b/x.fa" "o" "makeblastdb").1 [] [])] ∧
    (make_blast_jobs ["a/x.fa", "b/x.fa"] "o" "blastp" "makeblastdb" "P").map
        (fun l => l.map (fun j => (j.name, j.dependencies))) =
      some [("P" ++ "_db_" ++ fmt06 1, []),
        ("P" ++ "_query_" ++ fmt06 1 ++ "_fwd", ["P" ++ "_db_" ++ fmt06 1]),
        ("P" ++ "_query_" ++ fmt06 1 ++ "_rev", ["P" ++ "_db_" ++ fmt06 1])]) :=
  ⟨by decide, C2_collision_behavior "a/x.fa" "b/x.fa" "o" "blastp" "makeblastdb" "P"
    (by decide)⟩

/-! ## Lemmas: path separations for C6 -/

theorem rfindIdx_lt_length {c : Char} :
    ∀ {l : List Char} {k : Nat}, rfindIdx c l = some k → k < l.length := by
  intro l
  induction l with
  | nil => intro k h; cases h
  | cons a t ih =>
    intro k h
    simp only [rfindIdx] at h
    cases hr : rfindIdx c t with
    | some k' =>
      rw [hr] at h
      injection h with h
      subst h
      have := ih hr
      simp only [List.length_cons]
      omega
    | none =>
      rw [hr] at h
      by_cases ha : a = c
      · rw [if_pos ha] at h
        injection h with h
        subst h
        simp
      · rw [if_neg ha] at h
        cases h

theorem rfindIdx_none_not_mem {c : Char} :
    ∀ {l : List Char}, rfindIdx c l = none → c ∉ l := by
  intro l
  induction l with
  | nil => intro _ h; cases h
  | cons a t ih =>
    intro h hmem
    simp only [rfindIdx] at h
    cases hr : rfindIdx c t with
    | some k' => rw [hr] at h; cases h
    | none =>
      rw [hr] at h
      by_cases ha : a = c
      · rw [if_pos ha] at h; cases h
      · rcases List.mem_cons.mp hmem with he | hmem'
        · exact ha he.symm
        · exact ih hr hmem'

theorem rfindIdx_not_mem_drop {c : Char} :
    ∀ {l : List Char} {k : Nat}, rfindIdx c l = some k → c ∉ l.drop (k + 1) := by
  intro l
  induction l with
  | nil => intro k h; cases h
  | cons a t ih =>
    intro k h
    simp only [rfindIdx] at h
    cases hr : rfindIdx c t with
    | some k' =>
      rw [hr] at h
      injection h with h
      subst h
      simpa using ih hr
    | none =>
      rw [hr] at h
      by_cases ha : a = c
      · rw [if_pos ha] at h
        injection h with h
        subst h
        simpa using rfindIdx_none_not_mem hr
      · rw [if_neg ha] at h
        cases h

theorem slash_not_mem_basename (p : String) : '/' ∉ (basename p).data := by
  cases hrf : rfindIdx '/' p.data with
  | none =>
    simp only [basename, hrf]
    exact rfindIdx_none_not_mem hrf
  | some k =>
    simp only [basename, hrf]
    exact rfindIdx_not_mem_drop hrf

/-- When `splitext` returns a nonempty extension, its root is the prefix of
the input up to the final dot, which lies strictly inside the string. -/
theorem splitext_ext_ne (p : String) (h : (splitext p).2 ≠ "") :
    ∃ di, rfindIdx '.' p.data = some di ∧
      (splitext p).1 = String.mk (p.data.take di) ∧ di < p.data.length := by
  simp only [splitext] at h ⊢
  cases hrf : rfindIdx '.' p.data with
  | none =>
    simp only [hrf] at h
    exact absurd rfl h
  | some di =>
    simp only [hrf] at h ⊢
    refine ⟨di, rfl, ?_, rfindIdx_lt_length hrf⟩
    split at h
    · rename_i hcond
      rw [if_pos hcond]
    · exact absurd rfl h

/-- Joining the same output directory with two different slash-free names
yields different paths. -/
theorem pathJoin_ne_of_ne (outdir b1 b2 : String)
    (h1 : '/' ∉ b1.data) (h2 : '/' ∉ b2.data) (hne : b1.data ≠ b2.data) :
    pathJoin outdir b1 ≠ pathJoin outdir b2 := by
  have hh : ∀ (b : String), '/' ∉ b.data → ¬(b.data.head? = some '/') := by
    intro b hb he
    cases hbd : b.data with
    | nil => rw [hbd] at he; cases he
    | cons a t =>
      rw [hbd] at he
      simp only [List.head?] at he
      injection he with he
      apply hb
      rw [hbd, he]
      exact List.mem_cons_self _ _
  unfold pathJoin
  rw [if_neg (hh b1 h1), if_neg (hh b2 h2)]
  by_cases hc : outdir.data = [] ∨ outdir.data.getLast? = some '/'
  · rw [if_pos hc, if_pos hc]
    intro he
    apply hne
    have hd := congrArg String.data he
    exact List.append_cancel_left hd
  · rw [if_neg hc, if_neg hc]
    intro he
    apply hne
    have hd := congrArg String.data he
    have hcons := List.append_cancel_left hd
    injection hcons

/-- C6: for an input file whose filename carries a nonempty extension, the
`-out` path of its index-construction command is `outdir` joined with the
full filename, every comparison command run against this dataset's index
names `outdir` joined with the extension-stripped stem as its `-db`
argument, and these two paths differ. -/
theorem C6_index_out_vs_db_path (infile outdir blastdb_exe : String)
    (hext : (splitext (basename infile)).2 ≠ "") :
    (construct_makeblastdb_cmd infile outdir blastdb_exe).1 =
      blastdb_exe ++ " -dbtype prot -in " ++ infile ++ " -title " ++ filestem infile ++
        " -out " ++ pathJoin outdir (basename infile) ∧
    (∀ qfile blastp_exe, ∃ front,
      construct_blastp_cmd qfile (pathJoin outdir (filestem infile)) outdir blastp_exe =
        front ++ (" -db " ++ pathJoin outdir (filestem infile) ++ " -outfmt 5")) ∧
    pathJoin outdir (basename infile) ≠ pathJoin outdir (filestem infile) := by
  obtain ⟨di, hdi, hstem, hlt⟩ := splitext_ext_ne (basename infile) hext
  have hstem' : filestem infile = String.mk ((basename infile).data.take di) := hstem
  refine ⟨rfl, ?_, ?_⟩
  · intro qfile blastp_exe
    refine ⟨blastp_exe ++ " -out " ++ pathJoin outdir (filestem qfile ++ "_vs_" ++
      filestem (pathJoin outdir (filestem infile))) ++ ".xml -query " ++ qfile, ?_⟩
    simp only [construct_blastp_cmd]
    simp [String.append_assoc]
  · apply pathJoin_ne_of_ne
    · exact slash_not_mem_basename infile
    · rw [hstem']
      intro hmem
      exact slash_not_mem_basename infile (List.mem_of_mem_take hmem)
    · rw [hstem']
      intro he
      have hlen := congrArg List.length he
      rw [List.length_take, Nat.min_eq_left (le_of_lt hlt)] at hlen
      omega

/-- Witness for `C6_index_out_vs_db_path` at a concrete dataset with a
`.fasta` extension. -/
theorem C6_witness :
    (splitext (basename "d/x.fasta")).2 ≠ "" ∧
    ((construct_makeblastdb_cmd "d/x.fasta" "o" "makeblastdb").1 =
      "makeblastdb" ++ " -dbtype prot -in " ++ "d/x.fasta" ++ " -title " ++
        filestem "d/x.fasta" ++ " -out " ++ pathJoin "o" (basename "d/x.fasta") ∧
    (∀ qfile blastp_exe, ∃ front,
      construct_blastp_cmd qfile (pathJoin "o" (filestem "d/x.fasta")) "o" blastp_exe =
        front ++ (" -db " ++ pathJoin "o" (filestem "d/x.fasta") ++ " -outfmt 5")) ∧
    pathJoin "o" (basename "d/x.fasta") ≠ pathJoin "o" (filestem "d/x.fasta")) :=
  ⟨by decide, C6_index_out_vs_db_path "d/x.fasta" "o" "makeblastdb" (by decide)⟩
